import Mathlib

/-!
Verification of the MarktComparator backend (mCbackend.py).

The backend holds a two-level mapping `markets : vendor name → product name → price`
loaded from a JSON document, plus four operations: `list_products`, `find_product`,
`update_product` and `delete_product`, and a `update_json` persistence step.

Python dicts are modelled as association lists with unique keys, preserving
insertion order (lookup, membership and deletion act on the first occurrence of a
key, which coincides with Python semantics whenever keys are unique).  Prices are
modelled as rationals.  Python exceptions are modelled with `Except`.
-/

abbrev Catalog := List (String × ℚ)

abbrev Ledger := List (String × Catalog)

/-- Python `d[k]` as an `Option` (a `none` is a `KeyError`): first occurrence wins. -/
def dictGet (m : List (String × α)) (k : String) : Option α :=
  match m with
  | [] => none
  | (k1, v1) :: rest => if k1 = k then some v1 else dictGet rest k

/-- Python `k in d`. -/
def dictMem (m : List (String × α)) (k : String) : Bool :=
  match m with
  | [] => false
  | (k1, _) :: rest => if k1 = k then true else dictMem rest k

/-- Python `d[k] = v`: replace the value at the first occurrence of `k` in place,
or append a new entry at the end. -/
def dictSet (m : List (String × α)) (k : String) (v : α) : List (String × α) :=
  match m with
  | [] => [(k, v)]
  | (k1, v1) :: rest => if k1 = k then (k, v) :: rest else (k1, v1) :: dictSet rest k v

/-- Python `del d[k]` when the key is known to exist: drop the first occurrence. -/
def dictDelKey (m : List (String × α)) (k : String) : List (String × α) :=
  match m with
  | [] => []
  | (k1, v1) :: rest => if k1 = k then rest else (k1, v1) :: dictDelKey rest k

/-- Python `del d[k]` with its `KeyError`: `none` when the key is absent. -/
def dictDel (m : List (String × α)) (k : String) : Option (List (String × α)) :=
  match m with
  | [] => none
  | (k1, v1) :: rest =>
    if k1 = k then some rest
    else (dictDel rest k).map (fun r => (k1, v1) :: r)

/-- Mutating `d[k]` in place through `f` (used for `markets[in_market][product] = cost`). -/
def dictModify (f : α → α) (k : String) (m : List (String × α)) : List (String × α) :=
  match m with
  | [] => []
  | (k1, v1) :: rest => if k1 = k then (k1, f v1) :: rest else (k1, v1) :: dictModify f k rest

/-- The iteration order of a Python dict: its keys in insertion order. -/
def dictKeys (m : List (String × α)) : List String :=
  m.map Prod.fst

/-- Python `s.lower()` (ASCII case folding suffices for the sentinel check). -/
def pyLower (s : String) : String :=
  String.mk (s.data.map Char.toLower)

/-- Helper for Python substring containment on character lists. -/
def containsSub (n : List Char) : List Char → Bool
  | [] => n.isEmpty
  | c :: rest => n.isPrefixOf (c :: rest) || containsSub n rest

/-- Python `needle in hay` on strings: substring containment. -/
def strIn (needle hay : String) : Bool :=
  containsSub needle.data hay.data

/-- The module state: the in-memory `markets` dict and the JSON document on disk
(`file`), which `update_json` overwrites with the in-memory value. -/
structure BackState where
  markets : Ledger
  file : Ledger
deriving DecidableEq

/-- mCbackend.update_json: rewrite the database file with the in-memory dictionary. -/
def update_json (st : BackState) : BackState :=
  { markets := st.markets, file := st.markets }

/-- Membership test used by list_products: `if product not in listed: listed.append(product)`. -/
def addUnique (listed : List String) (product : String) : List String :=
  if product ∈ listed then listed else listed ++ [product]

/-- mCbackend.list_products: collect each product name not already listed, one market
at a time; return `none` when the collected list is empty. -/
def list_products (m : Ledger) : Option (List String) :=
  let listed := m.foldl (fun acc e => e.2.foldl (fun acc2 q => addUnique acc2 q.1) acc) []
  if listed.length = 0 then none else some listed

/-- The argument type of delete_product: a market name or a list of market names. -/
inductive MarketArg where
  | str (s : String)
  | list (l : List String)

/-- Python exceptions that the backend can raise. -/
inductive PyErr where
  | keyError
  | attributeError
  | runtimeError
deriving DecidableEq

/-- The `for market in markets:` loop of delete_product in "all" mode, run over a
snapshot of the keys.  `if product in market` tests whether the product name is a
substring of the market NAME (the loop variable is the key).  Deleting a market
shrinks the dict being iterated, which CPython reports as a RuntimeError at the
next step of the iterator; the `dirty` flag models that. -/
def deleteAllLoop (product : String) : List String → Ledger → Bool → Except PyErr Ledger
  | [], m, dirty => if dirty then Except.error PyErr.runtimeError else Except.ok m
  | market :: rest, m, dirty =>
    if dirty then Except.error PyErr.runtimeError
    else if strIn product market then
      match dictGet m market with
      | none => Except.error PyErr.keyError
      | some cat =>
        match dictDel cat product with
        | none => Except.error PyErr.keyError
        | some cat2 =>
          if cat2.isEmpty then deleteAllLoop product rest (dictDelKey m market) true
          else deleteAllLoop product rest (dictSet m market cat2) dirty
    else deleteAllLoop product rest m dirty

/-- The `in_market.lower() == "all"` branch of delete_product: run the loop and
return True; note that this branch never calls update_json, so `file` is untouched. -/
def deleteAllMode (product : String) (st : BackState) : Except PyErr (BackState × Bool) :=
  match deleteAllLoop product (dictKeys st.markets) st.markets false with
  | Except.error e => Except.error e
  | Except.ok m2 => Except.ok ({ markets := m2, file := st.file }, true)

/-- mCbackend.delete_product.  A list argument raises AttributeError at
`in_market.lower()` before the isinstance check is ever reached, so the
list-of-markets branch of the source (lines 110-115) is dead code.  With a string
argument whose lowercasing is "all" the all-markets branch runs; otherwise
`del markets[in_market][product]` runs under a `try` that catches KeyError and
returns False (leaving both the dict and the file unchanged, as the KeyError is
raised before any mutation). -/
def delete_product (product : String) (in_market : MarketArg) (st : BackState) :
    Except PyErr (BackState × Bool) :=
  match in_market with
  | MarketArg.list _ => Except.error PyErr.attributeError
  | MarketArg.str s =>
    if pyLower s = "all" then deleteAllMode product st
    else
      match dictGet st.markets s with
      | none => Except.ok (st, false)
      | some cat =>
        match dictDel cat product with
        | none => Except.ok (st, false)
        | some cat2 =>
          let m2 := if cat2.isEmpty then dictDelKey st.markets s else dictSet st.markets s cat2
          Except.ok (update_json { markets := m2, file := st.file }, true)

/-- mCbackend.update_product: create the market with an empty catalog if absent,
then set `markets[in_market][product] = cost`, then persist. -/
def update_product (product : String) (in_market : String) (cost : ℚ) (st : BackState) :
    BackState :=
  let m := if dictMem st.markets in_market then st.markets else dictSet st.markets in_market []
  let m2 := dictModify (fun cat => dictSet cat product cost) in_market m
  update_json { markets := m2, file := st.file }

/-- Inner loop of find_product over one market's catalog: keep the entries whose
name equals the product, paired with the market name, in iteration order. -/
def findInCatalog (product current_market : String) : Catalog → List (String × ℚ)
  | [] => []
  | (product_name, product_price) :: rest =>
    if product_name = product then
      (current_market, product_price) :: findInCatalog product current_market rest
    else findInCatalog product current_market rest

/-- mCbackend.find_product: accumulate the matches market by market, in iteration
order.  The source never sorts the accumulated list. -/
def find_product (product : String) : Ledger → List (String × ℚ)
  | [] => []
  | (current_market, its_products) :: rest =>
    findInCatalog product current_market its_products ++ find_product product rest

/-- All product names of the ledger in iteration order (vendor order, then
product order within each vendor), duplicates included. -/
def allProductNames : Ledger → List String
  | [] => []
  | e :: rest => dictKeys e.2 ++ allProductNames rest

/-- Spec-side description of "first-seen order": keep the first occurrence of
each name, in order.  Written independently of list_products for comparison. -/
def specFirstSeen : List String → List String
  | [] => []
  | x :: xs => x :: (specFirstSeen xs).filter (fun y => y ≠ x)

/-- Spec-side description of "sorted ascending by price" for find_product results. -/
def specPricesAscend : List (String × ℚ) → Bool
  | [] => true
  | [_] => true
  | a :: b :: rest => decide (a.2 ≤ b.2) && specPricesAscend (b :: rest)

/-- The price the ledger records for a product at a vendor, if any. -/
def priceOf (m : Ledger) (vendor product : String) : Option ℚ :=
  (dictGet m vendor).bind (fun cat => dictGet cat product)

/-- The invariant of the spec: no vendor entry with an empty catalog. -/
def NoEmpty (m : Ledger) : Prop :=
  ∀ e ∈ m, e.2 ≠ []

/-- What Python guarantees of the loaded dicts: unique vendor keys and unique
product keys within each vendor. -/
def LedgerWF (m : Ledger) : Prop :=
  (dictKeys m).Nodup ∧ ∀ e ∈ m, (dictKeys e.2).Nodup

/-- Modelled from the spec: the JSON values the storage document can hold
(the stdlib json serializer is not part of the repository's sources). -/
inductive JValue where
  | num (q : ℚ)
  | str (s : String)
  | obj (fields : List (String × JValue))

/-- Modelled from the spec: serializing one vendor catalog to JSON object fields,
in insertion order. -/
def dumpCatalog (cat : Catalog) : List (String × JValue) :=
  cat.map (fun q => (q.1, JValue.num q.2))

/-- Modelled from the spec: `json.dump` of the full ledger, preserving insertion
order of vendors and products. -/
def dumpLedger (m : Ledger) : JValue :=
  JValue.obj (m.map (fun e => (e.1, JValue.obj (dumpCatalog e.2))))

/-- Building a Python dict from parsed key-value pairs: insert each pair in
order (a later duplicate key overwrites in place). -/
def dictify (l : List (String × α)) : List (String × α) :=
  l.foldl (fun acc e => dictSet acc e.1 e.2) []

/-- Modelled from the spec: reading one catalog object back; every field value
must be a number. -/
def parseCatalog : List (String × JValue) → Option Catalog
  | [] => some []
  | (k, JValue.num q) :: rest => (parseCatalog rest).map (fun c => (k, q) :: c)
  | _ => none

/-- Modelled from the spec: reading the vendor objects back; every field value
must itself be an object of numbers, which becomes a dict. -/
def parseLedger : List (String × JValue) → Option Ledger
  | [] => some []
  | (k, JValue.obj fields) :: rest =>
    (match parseCatalog fields with
     | some cat => (parseLedger rest).map (fun l => (k, dictify cat) :: l)
     | none => none)
  | _ => none

/-- Modelled from the spec: `json.load` of the document, rebuilding the
two-level dict. -/
def loadLedger : JValue → Option Ledger
  | JValue.obj fields => (parseLedger fields).map dictify
  | _ => none

instance (m : Ledger) : Decidable (NoEmpty m) :=
  inferInstanceAs (Decidable (∀ e ∈ m, e.2 ≠ []))

instance (m : Ledger) : Decidable (LedgerWF m) :=
  inferInstanceAs (Decidable (_ ∧ ∀ e ∈ m, (dictKeys e.2).Nodup))

/-- The spec's sort-order example: VendorA sells Milk at 1.50, VendorB at 1.20
(recorded as the rationals 3/2 and 6/5). -/
def exTwoVendors : Ledger :=
  [("VendorA", [("Milk", 3/2)]), ("VendorB", [("Milk", 6/5)])]

/-- A one-vendor ledger: Aldi sells Milk at 1.50, in memory and on disk. -/
def stAldi : BackState :=
  { markets := [("Aldi", [("Milk", 3/2)])], file := [("Aldi", [("Milk", 3/2)])] }

/-- A two-vendor state with integer prices, in memory and on disk. -/
def stTwo : BackState :=
  { markets := [("Aldi", [("Milk", 2), ("Bread", 3)]), ("Lidl", [("Milk", 1)])],
    file := [("Aldi", [("Milk", 2), ("Bread", 3)]), ("Lidl", [("Milk", 1)])] }

/-- A state whose single market is literally named "All". -/
def stNamedAll : BackState :=
  { markets := [("All", [("Milk", 2), ("Bread", 3)])],
    file := [("All", [("Milk", 2), ("Bread", 3)])] }

theorem dictGet_dictSet_self (m : List (String × α)) (k : String) (v : α) :
    dictGet (dictSet m k v) k = some v := by
  induction m with
  | nil => simp [dictSet, dictGet]
  | cons e rest ih =>
    obtain ⟨k1, v1⟩ := e
    by_cases h : k1 = k <;> simp [dictSet, dictGet, h, ih]

theorem dictGet_dictSet_ne (m : List (String × α)) (k k2 : String) (v : α) (h : k2 ≠ k) :
    dictGet (dictSet m k v) k2 = dictGet m k2 := by
  have hk : ¬(k = k2) := fun hh => h hh.symm
  induction m with
  | nil => simp [dictSet, dictGet, hk]
  | cons e rest ih =>
    obtain ⟨k1, v1⟩ := e
    by_cases h1 : k1 = k
    · subst h1
      simp [dictSet, dictGet, hk, fun hh : k1 = k2 => h hh.symm]
    · by_cases h2 : k1 = k2
      · subst h2
        simp [dictSet, dictGet, h1]
      · simp [dictSet, dictGet, h1, h2, ih]

theorem dictMem_iff_mem_keys (m : List (String × α)) (k : String) :
    dictMem m k = true ↔ k ∈ dictKeys m := by
  induction m with
  | nil => simp [dictMem, dictKeys]
  | cons e rest ih =>
    obtain ⟨k1, v1⟩ := e
    by_cases h : k1 = k <;> simp [dictMem, dictKeys, h, ih] <;> tauto

theorem dictGet_eq_none_iff (m : List (String × α)) (k : String) :
    dictGet m k = none ↔ k ∉ dictKeys m := by
  induction m with
  | nil => simp [dictGet, dictKeys]
  | cons e rest ih =>
    obtain ⟨k1, v1⟩ := e
    by_cases h : k1 = k <;> simp [dictGet, dictKeys, h, ih] <;> tauto

theorem dictSet_absent (m : List (String × α)) (k : String) (v : α)
    (h : dictMem m k = false) : dictSet m k v = m ++ [(k, v)] := by
  induction m with
  | nil => simp [dictSet]
  | cons e rest ih =>
    obtain ⟨k1, v1⟩ := e
    by_cases h1 : k1 = k
    · simp [dictMem, h1] at h
    · simp [dictMem, h1] at h
      simp [dictSet, h1, ih h]

theorem dictKeys_dictSet_mem (m : List (String × α)) (k : String) (v : α)
    (h : dictMem m k = true) : dictKeys (dictSet m k v) = dictKeys m := by
  induction m with
  | nil => simp [dictMem] at h
  | cons e rest ih =>
    obtain ⟨k1, v1⟩ := e
    by_cases h1 : k1 = k
    · simp [dictSet, dictKeys, h1]
    · simp [dictMem, h1] at h
      have hr := ih h
      simp only [dictKeys] at hr
      simp [dictSet, dictKeys, h1, hr]

theorem dictKeys_dictModify (f : α → α) (k : String) (m : List (String × α)) :
    dictKeys (dictModify f k m) = dictKeys m := by
  induction m with
  | nil => rfl
  | cons e rest ih =>
    obtain ⟨k1, v1⟩ := e
    by_cases h1 : k1 = k <;> simp [dictModify, dictKeys, h1] <;>
      simpa [dictKeys] using ih

theorem dictGet_dictModify_self (f : α → α) (k : String) (m : List (String × α)) :
    dictGet (dictModify f k m) k = (dictGet m k).map f := by
  induction m with
  | nil => simp [dictModify, dictGet]
  | cons e rest ih =>
    obtain ⟨k1, v1⟩ := e
    by_cases h1 : k1 = k <;> simp [dictModify, dictGet, h1, ih]

theorem dictGet_dictModify_ne (f : α → α) (k k2 : String) (m : List (String × α))
    (h : k2 ≠ k) : dictGet (dictModify f k m) k2 = dictGet m k2 := by
  induction m with
  | nil => simp [dictModify]
  | cons e rest ih =>
    obtain ⟨k1, v1⟩ := e
    by_cases h1 : k1 = k
    · subst h1
      have hne : ¬(k1 = k2) := fun hh => h hh.symm
      simp [dictModify, dictGet, hne]
    · by_cases h2 : k1 = k2
      · subst h2
        simp [dictModify, dictGet, h1]
      · simp [dictModify, dictGet, h1, h2, ih]

theorem dictModify_append_absent (f : α → α) (k : String) (m : List (String × α)) (x : α)
    (h : dictMem m k = false) :
    dictModify f k (m ++ [(k, x)]) = m ++ [(k, f x)] := by
  induction m with
  | nil => simp [dictModify]
  | cons e rest ih =>
    obtain ⟨k1, v1⟩ := e
    by_cases h1 : k1 = k
    · simp [dictMem, h1] at h
    · simp [dictMem, h1] at h
      simp [dictModify, h1, ih h]

theorem dictSet_ne_nil (m : List (String × α)) (k : String) (v : α) :
    dictSet m k v ≠ [] := by
  cases m with
  | nil => simp [dictSet]
  | cons e rest =>
    obtain ⟨k1, v1⟩ := e
    by_cases h1 : k1 = k <;> simp [dictSet, h1]

theorem dictSet_dictSet_self (m : List (String × α)) (k : String) (v : α) :
    dictSet (dictSet m k v) k v = dictSet m k v := by
  induction m with
  | nil => simp [dictSet]
  | cons e rest ih =>
    obtain ⟨k1, v1⟩ := e
    by_cases h1 : k1 = k <;> simp [dictSet, h1, ih]

theorem dictMem_dictSet_self (m : List (String × α)) (k : String) (v : α) :
    dictMem (dictSet m k v) k = true := by
  induction m with
  | nil => simp [dictSet, dictMem]
  | cons e rest ih =>
    obtain ⟨k1, v1⟩ := e
    by_cases h1 : k1 = k <;> simp [dictSet, dictMem, h1, ih]

theorem dictMem_dictModify (f : α → α) (k k2 : String) (m : List (String × α)) :
    dictMem (dictModify f k m) k2 = dictMem m k2 := by
  induction m with
  | nil => rfl
  | cons e rest ih =>
    obtain ⟨k1, v1⟩ := e
    by_cases h2 : k1 = k2
    · subst h2
      by_cases h1 : k1 = k <;> simp [dictModify, dictMem, h1]
    · by_cases h1 : k1 = k <;> simp [dictModify, dictMem, h1, h2, ih]

theorem dictModify_idem (f : α → α) (k : String) (m : List (String × α))
    (hf : ∀ x, f (f x) = f x) :
    dictModify f k (dictModify f k m) = dictModify f k m := by
  induction m with
  | nil => rfl
  | cons e rest ih =>
    obtain ⟨k1, v1⟩ := e
    by_cases h1 : k1 = k <;> simp [dictModify, h1, hf, ih]

theorem not_mem_keys_dictDelKey (m : List (String × α)) (k : String)
    (h : (dictKeys m).Nodup) : k ∉ dictKeys (dictDelKey m k) := by
  induction m with
  | nil => simp [dictDelKey, dictKeys]
  | cons e rest ih =>
    obtain ⟨k1, v1⟩ := e
    simp only [dictKeys, List.map_cons, List.nodup_cons] at h
    by_cases h1 : k1 = k
    · subst h1
      simpa [dictDelKey, dictKeys] using h.1
    · simp only [dictDelKey, h1, if_false, dictKeys, List.map_cons, List.mem_cons]
      push_neg
      exact ⟨fun hh => h1 hh.symm, ih h.2⟩

theorem noEmpty_dictDelKey (m : Ledger) (k : String) (h : NoEmpty m) :
    NoEmpty (dictDelKey m k) := by
  induction m with
  | nil => simpa [dictDelKey] using h
  | cons e rest ih =>
    obtain ⟨k1, v1⟩ := e
    have h1 := h (k1, v1) (by simp)
    have hr : NoEmpty rest := fun x hx => h x (by simp [hx])
    by_cases hk : k1 = k
    · simpa [NoEmpty, dictDelKey, hk] using hr
    · intro x hx
      simp only [dictDelKey, hk, if_false, List.mem_cons] at hx
      rcases hx with rfl | hx
      · exact h1
      · exact ih hr x hx

theorem noEmpty_dictSet (m : Ledger) (k : String) (v : Catalog) (h : NoEmpty m)
    (hv : v ≠ []) : NoEmpty (dictSet m k v) := by
  induction m with
  | nil => simpa [NoEmpty, dictSet] using hv
  | cons e rest ih =>
    obtain ⟨k1, v1⟩ := e
    have h1 := h (k1, v1) (by simp)
    have hr : NoEmpty rest := fun x hx => h x (by simp [hx])
    by_cases hk : k1 = k
    · intro x hx
      simp only [dictSet, hk, if_true, List.mem_cons] at hx
      rcases hx with rfl | hx
      · exact hv
      · exact hr x hx
    · intro x hx
      simp only [dictSet, hk, if_false, List.mem_cons] at hx
      rcases hx with rfl | hx
      · exact h1
      · exact ih hr x hx

theorem findInCatalog_fst (p mk : String) (cat : Catalog) :
    ∀ x ∈ findInCatalog p mk cat, x.1 = mk := by
  induction cat with
  | nil => simp [findInCatalog]
  | cons e rest ih =>
    obtain ⟨n, pr⟩ := e
    by_cases h : n = p
    · intro x hx
      simp only [findInCatalog, h, if_pos rfl] at hx
      rcases List.mem_cons.mp hx with rfl | hx2
      · rfl
      · exact ih x hx2
    · intro x hx
      simp only [findInCatalog, h, if_neg, ite_false] at hx
      exact ih x hx

theorem count_findInCatalog_ne (p mk v : String) (c : ℚ) (cat : Catalog) (h : mk ≠ v) :
    List.count (v, c) (findInCatalog p mk cat) = 0 := by
  rw [List.count_eq_zero]
  intro hmem
  exact h (findInCatalog_fst p mk cat (v, c) hmem).symm

theorem findInCatalog_eq_nil (p mk : String) (cat : Catalog) (h : p ∉ dictKeys cat) :
    findInCatalog p mk cat = [] := by
  induction cat with
  | nil => rfl
  | cons e rest ih =>
    obtain ⟨n, pr⟩ := e
    simp only [dictKeys, List.map_cons, List.mem_cons] at h
    push_neg at h
    have h1 : ¬(n = p) := fun hh => h.1 hh.symm
    have h2 : p ∉ dictKeys rest := by simpa [dictKeys] using h.2
    simp [findInCatalog, h1, ih h2]

theorem findInCatalog_dictSet (p v : String) (c : ℚ) (cat : Catalog)
    (h : (dictKeys cat).Nodup) :
    findInCatalog p v (dictSet cat p c) = [(v, c)] := by
  induction cat with
  | nil => simp [dictSet, findInCatalog]
  | cons e rest ih =>
    obtain ⟨n, pr⟩ := e
    simp only [dictKeys, List.map_cons, List.nodup_cons] at h
    by_cases hn : n = p
    · subst hn
      have hnil : findInCatalog n v rest = [] :=
        findInCatalog_eq_nil n v rest (by simpa [dictKeys] using h.1)
      simp [dictSet, findInCatalog, hnil]
    · have hr : (dictKeys rest).Nodup := by simpa [dictKeys] using h.2
      simp [dictSet, findInCatalog, hn, ih hr]

theorem count_find_product_zero (p v : String) (c : ℚ) (m : Ledger)
    (h : v ∉ dictKeys m) : List.count (v, c) (find_product p m) = 0 := by
  induction m with
  | nil => simp [find_product]
  | cons e rest ih =>
    obtain ⟨mk, cat⟩ := e
    simp only [dictKeys, List.map_cons, List.mem_cons] at h
    push_neg at h
    have h1 : mk ≠ v := fun hh => h.1 hh.symm
    have h2 : v ∉ dictKeys rest := by simpa [dictKeys] using h.2
    simp only [find_product, List.count_append]
    rw [count_findInCatalog_ne p mk v c cat h1, ih h2]

theorem count_find_product_of_get (p v : String) (c : ℚ) (m : Ledger) (cat : Catalog)
    (hnd : (dictKeys m).Nodup) (hget : dictGet m v = some cat) :
    List.count (v, c) (find_product p m) = List.count (v, c) (findInCatalog p v cat) := by
  induction m with
  | nil => simp [dictGet] at hget
  | cons e rest ih =>
    obtain ⟨mk, catk⟩ := e
    simp only [dictKeys, List.map_cons, List.nodup_cons] at hnd
    by_cases hk : mk = v
    · subst hk
      simp only [dictGet, if_true, Option.some.injEq] at hget
      subst hget
      simp only [find_product, List.count_append]
      rw [count_find_product_zero p mk c rest (by simpa [dictKeys] using hnd.1)]
      omega
    · simp only [dictGet, hk, ite_false] at hget
      simp only [find_product, List.count_append]
      rw [count_findInCatalog_ne p mk v c catk hk,
        ih (by simpa [dictKeys] using hnd.2) hget]
      omega

theorem dictGet_some_of_mem (m : List (String × α)) (k : String) (h : dictMem m k = true) :
    ∃ v, dictGet m k = some v ∧ (k, v) ∈ m := by
  induction m with
  | nil => simp [dictMem] at h
  | cons e rest ih =>
    obtain ⟨k1, v1⟩ := e
    by_cases h1 : k1 = k
    · subst h1
      exact ⟨v1, by simp [dictGet], by simp⟩
    · simp only [dictMem, h1, ite_false] at h
      obtain ⟨v, hv, hmem⟩ := ih h
      exact ⟨v, by simp [dictGet, h1, hv], by simp [hmem]⟩

/-- Claim C4: update_or_insert creates the vendor when absent, overwrites the
(vendor, product) price, and afterwards find_product lists (vendor, price)
exactly once. -/
theorem update_or_insert_find_once (st : BackState) (product in_market : String) (cost : ℚ)
    (hWF : LedgerWF st.markets) :
    priceOf (update_product product in_market cost st).markets in_market product = some cost
    ∧ List.count (in_market, cost)
        (find_product product (update_product product in_market cost st).markets) = 1 := by
  obtain ⟨hnd, hinner⟩ := hWF
  have key : ∃ m0 cat0,
      (update_product product in_market cost st).markets =
        dictModify (fun cat => dictSet cat product cost) in_market m0
      ∧ dictGet m0 in_market = some cat0
      ∧ (dictKeys m0).Nodup ∧ (dictKeys cat0).Nodup := by
    by_cases hmem : dictMem st.markets in_market = true
    · obtain ⟨cat0, hget, hin⟩ := dictGet_some_of_mem st.markets in_market hmem
      exact ⟨st.markets, cat0, by simp [update_product, update_json, hmem], hget, hnd,
        hinner _ hin⟩
    · refine ⟨dictSet st.markets in_market [], [], ?_, dictGet_dictSet_self _ _ _, ?_,
        by simp [dictKeys]⟩
      · simp [update_product, update_json, hmem]
      · have hnotin : in_market ∉ dictKeys st.markets := by
          rw [← dictMem_iff_mem_keys]
          simp [hmem]
        rw [dictSet_absent st.markets in_market [] (by simpa using hmem)]
        simp only [dictKeys, List.map_append, List.map_cons, List.map_nil]
        rw [List.nodup_append]
        refine ⟨hnd, List.nodup_singleton _, ?_⟩
        intro a ha hb
        rw [List.mem_singleton] at hb
        subst hb
        exact hnotin ha
  obtain ⟨m0, cat0, hm, hget, hnd0, hnd0c⟩ := key
  have hget2 : dictGet (update_product product in_market cost st).markets in_market =
      some (dictSet cat0 product cost) := by
    rw [hm, dictGet_dictModify_self, hget]
    rfl
  constructor
  · rw [priceOf, hget2]
    simpa using dictGet_dictSet_self cat0 product cost
  · have hndm : (dictKeys (update_product product in_market cost st).markets).Nodup := by
      rw [hm, dictKeys_dictModify]
      exact hnd0
    rw [count_find_product_of_get product in_market cost _ _ hndm hget2]
    rw [findInCatalog_dictSet product in_market cost cat0 hnd0c]
    simp

/-- Witness for C4 at a concrete input. -/
theorem update_or_insert_find_once_wit :
    LedgerWF stTwo.markets
    ∧ (priceOf (update_product "Butter" "Lidl" 4 stTwo).markets "Lidl" "Butter" = some 4
      ∧ List.count ("Lidl", (4:ℚ))
          (find_product "Butter" (update_product "Butter" "Lidl" 4 stTwo).markets) = 1) :=
  ⟨by decide, update_or_insert_find_once stTwo "Butter" "Lidl" 4 (by decide)⟩

/-- Claim C6: update_or_insert is idempotent: running it twice with the same
arguments leaves the whole state (memory and file) as after one run. -/
theorem update_or_insert_idem (product in_market : String) (cost : ℚ) (st : BackState) :
    update_product product in_market cost (update_product product in_market cost st) =
      update_product product in_market cost st := by
  have hgg : ∀ cat : Catalog, dictSet (dictSet cat product cost) product cost
      = dictSet cat product cost := fun cat => dictSet_dictSet_self cat product cost
  by_cases hmem : dictMem st.markets in_market = true
  · have hmem1 : dictMem (dictModify (fun cat => dictSet cat product cost) in_market
        st.markets) in_market = true := by
      rw [dictMem_dictModify]
      exact hmem
    simp only [update_product, update_json, hmem, if_true, hmem1]
    rw [dictModify_idem _ _ _ hgg]
  · have hmem0 : dictMem (dictSet st.markets in_market []) in_market = true :=
      dictMem_dictSet_self st.markets in_market []
    have hmem1 : dictMem (dictModify (fun cat => dictSet cat product cost) in_market
        (dictSet st.markets in_market [])) in_market = true := by
      rw [dictMem_dictModify]
      exact hmem0
    have hidem := dictModify_idem (fun cat => dictSet cat product cost) in_market
      (dictSet st.markets in_market []) hgg
    simp [update_product, update_json, hmem, hmem1, hidem]

/-- Claim C10: update_product leaves every vendor other than the target, and every
product of the target vendor other than the inserted one, unchanged. -/
theorem update_product_frame (st : BackState) (product in_market : String) (cost : ℚ) :
    (∀ v2, v2 ≠ in_market →
      dictGet (update_product product in_market cost st).markets v2 = dictGet st.markets v2)
    ∧ ∀ p2, p2 ≠ product →
      priceOf (update_product product in_market cost st).markets in_market p2 =
        priceOf st.markets in_market p2 := by
  constructor
  · intro v2 hv2
    by_cases hmem : dictMem st.markets in_market = true
    · simp only [update_product, update_json, hmem, if_true]
      rw [dictGet_dictModify_ne _ _ _ _ hv2]
    · have h1 := dictGet_dictModify_ne (fun cat => dictSet cat product cost) in_market v2
        (dictSet st.markets in_market []) hv2
      have h2 := dictGet_dictSet_ne st.markets in_market v2 [] hv2
      simp [update_product, update_json, hmem, h1, h2]
  · intro p2 hp2
    by_cases hmem : dictMem st.markets in_market = true
    · simp only [update_product, update_json, priceOf, hmem, if_true]
      rw [dictGet_dictModify_self]
      cases hget : dictGet st.markets in_market with
      | none => rfl
      | some cat => simp [dictGet_dictSet_ne cat product p2 cost hp2]
    · have hnone : dictGet st.markets in_market = none := by
        rw [dictGet_eq_none_iff, ← dictMem_iff_mem_keys]
        simp [hmem]
      have h3 := dictGet_dictSet_self st.markets in_market ([] : Catalog)
      have h4 := dictGet_dictModify_self (fun cat => dictSet cat product cost) in_market
        (dictSet st.markets in_market [])
      have hp2s : ¬(product = p2) := fun hh => hp2 hh.symm
      simp [update_product, update_json, priceOf, hmem, h3, h4, hnone, dictSet, dictGet, hp2s]

/-- Witness for C10 at a concrete input. -/
theorem update_product_frame_wit :
    dictGet (update_product "Butter" "Lidl" 4 stTwo).markets "Aldi" =
      dictGet stTwo.markets "Aldi"
    ∧ priceOf (update_product "Butter" "Lidl" 4 stTwo).markets "Lidl" "Milk" =
      priceOf stTwo.markets "Lidl" "Milk" :=
  ⟨(update_product_frame stTwo "Butter" "Lidl" 4).1 "Aldi" (by decide),
   (update_product_frame stTwo "Butter" "Lidl" 4).2 "Milk" (by decide)⟩

theorem noEmpty_dictModify (f : Catalog → Catalog) (k : String) (m : Ledger)
    (hm : NoEmpty m) (hf : ∀ x, f x ≠ []) : NoEmpty (dictModify f k m) := by
  induction m with
  | nil => simpa [dictModify] using hm
  | cons e rest ih =>
    obtain ⟨k1, v1⟩ := e
    have h1 := hm (k1, v1) (by simp)
    have hr : NoEmpty rest := fun x hx => hm x (by simp [hx])
    by_cases hk : k1 = k
    · intro x hx
      simp only [dictModify, hk, if_pos rfl] at hx
      cases hx with
      | head => exact hf v1
      | tail _ h => exact hr x h
    · intro x hx
      simp only [dictModify, hk, ite_false] at hx
      cases hx with
      | head => exact h1
      | tail _ h => exact ih hr x h

theorem deleteAllLoop_noEmpty (product : String) (ks : List String) :
    ∀ (m : Ledger) (dirty : Bool) (m2 : Ledger),
      NoEmpty m → deleteAllLoop product ks m dirty = Except.ok m2 → NoEmpty m2 := by
  induction ks with
  | nil =>
    intro m dirty m2 hne heq
    cases dirty
    · simp [deleteAllLoop] at heq
      exact heq ▸ hne
    · simp [deleteAllLoop] at heq
  | cons market rest ih =>
    intro m dirty m2 hne heq
    cases dirty
    case true => simp [deleteAllLoop] at heq
    case false =>
    by_cases hs : strIn product market = true
    · cases hget : dictGet m market with
      | none => simp [deleteAllLoop, hs, hget] at heq
      | some cat =>
        cases hdel : dictDel cat product with
        | none => simp [deleteAllLoop, hs, hget, hdel] at heq
        | some cat2 =>
          by_cases hemp : cat2.isEmpty = true
          · simp only [deleteAllLoop, hs, hget, hdel, hemp, Bool.false_eq_true, if_false,
              if_true] at heq
            exact ih _ _ _ (noEmpty_dictDelKey m market hne) heq
          · have hc2 : cat2 ≠ [] := by simpa [List.isEmpty_iff] using hemp
            simp only [deleteAllLoop, hs, hget, hdel, hemp, Bool.false_eq_true, if_false,
              if_true] at heq
            exact ih _ _ _ (noEmpty_dictSet m market cat2 hne hc2) heq
    · simp only [deleteAllLoop, hs, Bool.false_eq_true, if_false] at heq
      exact ih _ _ _ hne heq

/-- Claim C5: starting from a ledger with no empty catalog, update_product and every
successful delete_product preserve the no-empty-catalog invariant, and deleting the
only product a vendor carries (explicitly, by name) removes the vendor entirely. -/
theorem no_empty_catalog_invariant (st : BackState) (product v : String) (cost : ℚ)
    (hNE : NoEmpty st.markets) (hND : (dictKeys st.markets).Nodup) :
    NoEmpty (update_product product v cost st).markets
    ∧ (∀ (q : String) (arg : MarketArg) (out : BackState × Bool),
        delete_product q arg st = Except.ok out → NoEmpty out.1.markets)
    ∧ (pyLower v ≠ "all" → dictGet st.markets v = some [(product, cost)] →
        ∃ st2 : BackState, delete_product product (MarketArg.str v) st = Except.ok (st2, true)
          ∧ v ∉ dictKeys st2.markets) := by
  refine ⟨?_, ?_, ?_⟩
  · by_cases hmem : dictMem st.markets v = true
    · have hm : (update_product product v cost st).markets =
          dictModify (fun cat => dictSet cat product cost) v st.markets := by
        simp [update_product, update_json, hmem]
      rw [hm]
      exact noEmpty_dictModify _ v st.markets hNE (fun x => dictSet_ne_nil x product cost)
    · have habs : dictMem st.markets v = false := by simpa using hmem
      have hm : (update_product product v cost st).markets =
          st.markets ++ [(v, dictSet [] product cost)] := by
        have e1 := dictSet_absent st.markets v ([] : Catalog) habs
        have e2 := dictModify_append_absent (fun cat => dictSet cat product cost) v
          st.markets ([] : Catalog) habs
        simp [update_product, update_json, hmem, e1, e2]
      rw [hm]
      intro x hx
      rcases List.mem_append.mp hx with hx | hx
      · exact hNE x hx
      · rw [List.mem_singleton] at hx
        subst hx
        exact dictSet_ne_nil _ _ _
  · intro q arg out heq
    cases arg with
    | list l => simp [delete_product] at heq
    | str s =>
      by_cases hall : pyLower s = "all"
      · cases hloop : deleteAllLoop q (dictKeys st.markets) st.markets false with
        | error e => simp [delete_product, hall, deleteAllMode, hloop] at heq
        | ok m2 =>
          simp only [delete_product, hall, if_pos rfl, deleteAllMode, hloop] at heq
          have hm2 := deleteAllLoop_noEmpty q (dictKeys st.markets) st.markets false m2
            hNE hloop
          obtain rfl : ({ markets := m2, file := st.file }, true) = out :=
            Except.ok.inj heq
          exact hm2
      · cases hget : dictGet st.markets s with
        | none =>
          simp only [delete_product, hall, ite_false, hget] at heq
          obtain rfl : (st, false) = out := Except.ok.inj heq
          exact hNE
        | some cat =>
          cases hdel : dictDel cat q with
          | none =>
            simp only [delete_product, hall, ite_false, hget, hdel] at heq
            obtain rfl : (st, false) = out := Except.ok.inj heq
            exact hNE
          | some cat2 =>
            by_cases hemp : cat2.isEmpty = true
            · simp only [delete_product, hall, ite_false, hget, hdel, hemp, if_true,
                update_json] at heq
              obtain rfl := Except.ok.inj heq
              exact noEmpty_dictDelKey st.markets s hNE
            · have hc2 : cat2 ≠ [] := by simpa [List.isEmpty_iff] using hemp
              simp only [delete_product, hall, ite_false, hget, hdel, hemp,
                Bool.false_eq_true, if_false, update_json] at heq
              obtain rfl := Except.ok.inj heq
              exact noEmpty_dictSet st.markets s cat2 hNE hc2
  · intro hall hget
    refine ⟨update_json { markets := dictDelKey st.markets v, file := st.file }, ?_, ?_⟩
    · simp [delete_product, hall, hget, dictDel, update_json]
    · simpa [update_json] using not_mem_keys_dictDelKey st.markets v hND

/-- Witness for C5 at a concrete input. -/
theorem no_empty_catalog_invariant_wit :
    NoEmpty stTwo.markets ∧ (dictKeys stTwo.markets).Nodup
    ∧ ∃ st2 : BackState,
        delete_product "Milk" (MarketArg.str "Lidl") stTwo = Except.ok (st2, true)
        ∧ "Lidl" ∉ dictKeys st2.markets :=
  ⟨by decide, by decide,
    (no_empty_catalog_invariant stTwo "Milk" "Lidl" 1 (by decide) (by decide)).2.2
      (by decide) rfl⟩

theorem foldl_addUnique (xs : List String) :
    ∀ acc : List String, List.foldl addUnique acc xs =
      acc ++ (specFirstSeen xs).filter (fun y => decide (y ∉ acc)) := by
  induction xs with
  | nil =>
    intro acc
    simp [specFirstSeen]
  | cons x rest ih =>
    intro acc
    by_cases hx : x ∈ acc
    · rw [List.foldl_cons, show addUnique acc x = acc from by simp [addUnique, hx], ih acc]
      simp only [specFirstSeen, List.filter_cons]
      rw [if_neg (by simp [hx])]
      rw [List.filter_filter]
      congr 1
      apply List.filter_congr
      intro a ha
      by_cases h1 : a ∈ acc
      · simp [h1]
      · have h2 : ¬(a = x) := fun hh => h1 (by rw [hh]; exact hx)
        simp [h1, h2]
    · rw [List.foldl_cons, show addUnique acc x = acc ++ [x] from by simp [addUnique, hx],
        ih (acc ++ [x])]
      simp only [specFirstSeen, List.filter_cons]
      rw [if_pos (by simp [hx])]
      rw [List.append_assoc, List.singleton_append, List.filter_filter]
      congr 2
      apply List.filter_congr
      intro a ha
      by_cases h1 : a ∈ acc <;> by_cases h2 : a = x <;>
        simp [h1, h2, List.mem_append]

theorem list_products_loop (m : Ledger) :
    ∀ acc : List String,
      m.foldl (fun acc2 e => e.2.foldl (fun acc3 q => addUnique acc3 q.1) acc2) acc =
      List.foldl addUnique acc (allProductNames m) := by
  induction m with
  | nil =>
    intro acc
    simp [allProductNames]
  | cons e rest ih =>
    intro acc
    simp only [List.foldl_cons, allProductNames, List.foldl_append]
    rw [ih]
    congr 1
    simp [dictKeys, List.foldl_map]

theorem specFirstSeen_nodup (l : List String) : (specFirstSeen l).Nodup := by
  induction l with
  | nil => simp [specFirstSeen]
  | cons x rest ih =>
    simp only [specFirstSeen, List.nodup_cons]
    refine ⟨?_, ih.filter _⟩
    intro hmem
    have := List.of_mem_filter hmem
    simp at this

theorem mem_specFirstSeen (l : List String) (y : String) :
    y ∈ specFirstSeen l ↔ y ∈ l := by
  induction l with
  | nil => simp [specFirstSeen]
  | cons x rest ih =>
    simp only [specFirstSeen, List.mem_cons]
    by_cases hy : y = x
    · simp [hy]
    · simp only [hy, false_or]
      rw [List.mem_filter]
      simp [hy, ih]

theorem specFirstSeen_eq_nil (l : List String) : specFirstSeen l = [] ↔ l = [] := by
  cases l <;> simp [specFirstSeen]

/-- Claim C7: list_products returns each distinct product name exactly once, in
first-seen order across vendors, and returns the none signal exactly when no
vendor carries any product. -/
theorem list_products_spec (m : Ledger) :
    list_products m =
      (if allProductNames m = [] then none else some (specFirstSeen (allProductNames m)))
    ∧ (specFirstSeen (allProductNames m)).Nodup
    ∧ ∀ y, y ∈ specFirstSeen (allProductNames m) ↔ y ∈ allProductNames m := by
  refine ⟨?_, specFirstSeen_nodup _, fun y => mem_specFirstSeen _ y⟩
  have h3 : (m.foldl (fun acc e => e.2.foldl (fun acc2 q => addUnique acc2 q.1) acc) []) =
      specFirstSeen (allProductNames m) := by
    rw [list_products_loop m [], foldl_addUnique (allProductNames m) []]
    simp
  simp only [list_products, h3]
  rcases eq_or_ne (allProductNames m) [] with he | he
  · simp [he, specFirstSeen]
  · have hne : specFirstSeen (allProductNames m) ≠ [] := by
      rw [ne_eq, specFirstSeen_eq_nil]
      exact he
    simp [he, List.length_eq_zero, hne]

/-- Witness for C7: on a concrete two-vendor state, Milk is listed before Bread,
once each. -/
theorem list_products_spec_wit :
    list_products stTwo.markets = some ["Milk", "Bread"] :=
  ((list_products_spec stTwo.markets).1).trans (by decide)

theorem parseCatalog_dumpCatalog (cat : Catalog) :
    parseCatalog (dumpCatalog cat) = some cat := by
  induction cat with
  | nil => rfl
  | cons e rest ih =>
    obtain ⟨k, q⟩ := e
    have ih2 : parseCatalog (List.map (fun q => (q.1, JValue.num q.2)) rest) = some rest := by
      simpa [dumpCatalog] using ih
    simp [dumpCatalog, parseCatalog, ih2]

theorem foldl_dictSet_append (l : List (String × α)) :
    ∀ acc : List (String × α), (dictKeys (acc ++ l)).Nodup →
      List.foldl (fun a e => dictSet a e.1 e.2) acc l = acc ++ l := by
  induction l with
  | nil =>
    intro acc h
    simp
  | cons e rest ih =>
    intro acc h
    obtain ⟨k, v⟩ := e
    have hk : k ∉ dictKeys acc := by
      simp only [dictKeys, List.map_append, List.map_cons] at h
      have hd := (List.nodup_append.mp h).2.2
      intro hmem
      exact hd hmem (by simp)
    have hnotin : dictMem acc k = false := by
      cases hdm : dictMem acc k with
      | false => rfl
      | true => exact absurd ((dictMem_iff_mem_keys acc k).mp hdm) hk
    simp only [List.foldl_cons]
    rw [show dictSet acc k v = acc ++ [(k, v)] from dictSet_absent acc k v hnotin]
    rw [ih (acc ++ [(k, v)]) (by simpa using h)]
    simp

theorem dictify_self (l : List (String × α)) (h : (dictKeys l).Nodup) : dictify l = l := by
  have h2 := foldl_dictSet_append l [] (by simpa using h)
  simpa [dictify] using h2

theorem parseLedger_dump (m : Ledger) (h : ∀ e ∈ m, (dictKeys e.2).Nodup) :
    parseLedger (m.map (fun e => (e.1, JValue.obj (dumpCatalog e.2)))) = some m := by
  induction m with
  | nil => rfl
  | cons e rest ih =>
    obtain ⟨k, cat⟩ := e
    have hk : (dictKeys cat).Nodup := h (k, cat) (by simp)
    have hr : ∀ x ∈ rest, (dictKeys x.2).Nodup := fun x hx => h x (by simp [hx])
    simp [parseLedger, parseCatalog_dumpCatalog, dictify_self cat hk, ih hr]

/-- Claim C8: serializing the ledger and reading it back yields an equal mapping:
same vendors, same products, same prices, in the same order. -/
theorem dump_load_roundtrip (m : Ledger) (hWF : LedgerWF m) :
    loadLedger (dumpLedger m) = some m := by
  obtain ⟨hnd, hinner⟩ := hWF
  simp [dumpLedger, loadLedger, parseLedger_dump m hinner, dictify_self m hnd]

/-- Witness for C8 at a concrete ledger. -/
theorem dump_load_roundtrip_wit :
    LedgerWF stTwo.markets ∧ loadLedger (dumpLedger stTwo.markets) = some stTwo.markets :=
  ⟨by decide, dump_load_roundtrip stTwo.markets (by decide)⟩

/-- Claim C9: the "all" sentinel of delete_product is matched case-insensitively:
any string whose lowercasing is "all" selects every-vendor mode, so such a string
never targets an explicit single vendor. -/
theorem delete_sentinel_case_insensitive (product s : String) (st : BackState)
    (h : pyLower s = "all") :
    delete_product product (MarketArg.str s) st = deleteAllMode product st := by
  simp [delete_product, h]

/-- Witness for C9: "All" runs every-vendor mode; the market literally named "All"
keeps its Milk entry because it is never treated as an explicit vendor target. -/
theorem delete_sentinel_case_insensitive_wit :
    pyLower "All" = "all"
    ∧ delete_product "Milk" (MarketArg.str "All") stNamedAll = deleteAllMode "Milk" stNamedAll
    ∧ deleteAllMode "Milk" stNamedAll = Except.ok (stNamedAll, true) :=
  ⟨by decide, delete_sentinel_case_insensitive "Milk" "All" stNamedAll (by decide), rfl⟩

/-- Claim C1: with Milk at VendorA for 1.50 and VendorB for 1.20, find_product
returns the pairs in vendor iteration order, NOT sorted ascending by price: the
source accumulates matches and never sorts them. -/
theorem find_product_not_sorted :
    find_product "Milk" exTwoVendors = [("VendorA", 3/2), ("VendorB", 6/5)]
    ∧ find_product "Milk" exTwoVendors ≠ [("VendorB", 6/5), ("VendorA", 3/2)]
    ∧ specPricesAscend (find_product "Milk" exTwoVendors) = false := by
  have h65 : ¬((3:ℚ)/2 ≤ 6/5) := by norm_num
  refine ⟨rfl, ?_, ?_⟩
  · intro h
    have h1 : ("VendorA", (3:ℚ)/2) = ("VendorB", (6:ℚ)/5) := by
      have h0 : find_product "Milk" exTwoVendors = [("VendorA", 3/2), ("VendorB", 6/5)] := rfl
      rw [h0] at h
      exact (List.cons.inj h).1
    have h2 : "VendorA" = "VendorB" := congrArg Prod.fst h1
    exact absurd h2 (by decide)
  · show specPricesAscend [("VendorA", 3/2), ("VendorB", 6/5)] = false
    simp [specPricesAscend, h65]

/-- Claim C2: delete_product in "all" mode, on a ledger where Aldi carries Milk,
reports success yet removes nothing from memory and persists nothing: the branch
tests `product in market` on the market NAME and never calls update_json. -/
theorem delete_all_mode_noop :
    delete_product "Milk" (MarketArg.str "all") stAldi = Except.ok (stAldi, true)
    ∧ priceOf stAldi.markets "Aldi" "Milk" = some (3/2)
    ∧ stAldi.file = stAldi.markets :=
  ⟨rfl, rfl, rfl⟩

/-- Claim C3: delete_product with a list of vendor names raises AttributeError
(`in_market.lower()` runs on the list before the isinstance check) instead of
returning False. -/
theorem delete_list_raises :
    delete_product "Bread" (MarketArg.list ["Aldi"]) stAldi =
      Except.error PyErr.attributeError := rfl
